import Mathlib

/-!
Verification of the dgit repository-browsing core against its
natural-language specification.

The Lean definitions below are a shallow embedding of the Go sources:

* `internal/request/request.go` — the two-grammar URL parser
  (`splitPath`, `parseCloneRequest`, `parseWebRequest`, `Parse`);
* `ServeHTTP` of the dgit handler — the status mapping and the section
  dispatch (`serveHTTP`);
* `internal/middleware/middleware.go` — repository resolution and the
  two redirect strategies (`resolveRepo`, `tryDashRedirect`,
  `trySuffixRedirect`, `repoMiddleware`), over an abstract filesystem;
* `internal/repo` `IsRepo`;
* `data/data.go` — `FilePatch.Info`, the diff expansion and windowing.

Go's `path.Join`/`filepath.Join` (slash separator) and `path.Clean` are
embedded as `pathJoin`/`pathClean`; `bufio.Scanner` with `ScanLines` is
embedded as `scanLines`.  Machine integers in the sources stay within
small nonnegative ranges (line counters, slice indices), so they are
modelled with `Nat`/`Int` directly.
-/

set_option maxRecDepth 8000

namespace Dgit

/-! ## String and path helpers (Go standard library fragments)

String traversals are written over `String.data` character lists with
structural recursion so that every definition evaluates inside the
kernel (`rfl`/`decide`) on concrete inputs. -/

/-- `pat` is a leading segment of `s` (both as character lists). -/
def listStarts : List Char → List Char → Bool
  | _, [] => true
  | [], _ :: _ => false
  | a :: as, b :: bs => a == b && listStarts as bs

/-- Go `strings.HasPrefix` / `String.startsWith`. -/
def strStarts (s pat : String) : Bool := listStarts s.data pat.data

/-- Go `strings.HasSuffix` / `String.endsWith`. -/
def strEnds (s pat : String) : Bool := listStarts s.data.reverse pat.data.reverse

/-- Split a character list at every occurrence of the character `c`
(Go `strings.Split` with a one-character separator). -/
def splitChar (c : Char) : List Char → List (List Char)
  | [] => [[]]
  | x :: xs =>
    match splitChar c xs with
    | t :: ts => if x = c then [] :: t :: ts else (x :: t) :: ts
    | [] => [[]]

/-- Go `strings.Split s (String.singleton c)`. -/
def strSplitChar (s : String) (c : Char) : List String :=
  (splitChar c s.data).map String.mk

/-- Split at every non-overlapping occurrence of `..`, scanning left to
right (Go `strings.Split s ".."`). -/
def splitDotDot : List Char → List (List Char)
  | '.' :: '.' :: rest => [] :: splitDotDot rest
  | x :: rest =>
    match splitDotDot rest with
    | t :: ts => (x :: t) :: ts
    | [] => [[x]]
  | [] => [[]]

/-- Go `strings.Split s ".."`. -/
def strSplitDotDot (s : String) : List String :=
  (splitDotDot s.data).map String.mk

/-- Go `strings.TrimSuffix`: drop one trailing occurrence of `suff`. -/
def trimSuffix (s suff : String) : String :=
  if strEnds s suff then s.dropRight suff.length else s

/-- Go `strings.Fields` restricted to single-space separation, which is
the only shape the embedded constants use. -/
def strFields (s : String) : List String :=
  (strSplitChar s ' ').filter (· ≠ "")

/-- One step of Go `path.Clean`'s element processing: empty and `.`
elements vanish, `..` pops the previous element (kept when there is
nothing to pop in an unrooted path, dropped at the root). `acc` holds
the already-cleaned elements in reverse. -/
def cleanLoop (rooted : Bool) (acc : List String) : List String → List String
  | [] => acc.reverse
  | seg :: rest =>
    if seg = "" ∨ seg = "." then cleanLoop rooted acc rest
    else if seg = ".." then
      match acc with
      | [] => if rooted then cleanLoop rooted [] rest
              else cleanLoop rooted [".."] rest
      | a :: as =>
        if a = ".." then cleanLoop rooted (seg :: a :: as) rest
        else cleanLoop rooted as rest
    else cleanLoop rooted (seg :: acc) rest

/-- Go `path.Clean` (equivalently `filepath.Clean` on slash paths). -/
def pathClean (p : String) : String :=
  let rooted := strStarts p "/"
  let out := String.intercalate "/" (cleanLoop rooted [] (strSplitChar p '/'))
  if rooted then "/" ++ out
  else if out = "" then "." else out

/-- Go `path.Join`/`filepath.Join` on slash paths: drop empty elements,
join with `/`, then `Clean`; all-empty input yields `""`. -/
def pathJoin (elems : List String) : String :=
  if elems.all (· = "") then ""
  else pathClean (String.intercalate "/" (elems.filter (· ≠ "")))

/-- Go `bufio.ScanLines` CR stripping. -/
def dropCR (s : String) : String :=
  if strEnds s "\r" then s.dropRight 1 else s

/-- The sequence of lines a `bufio.Scanner` with `ScanLines` yields on
`s`: split at `\n`, no empty final token after a trailing newline, and
a trailing `\r` stripped from every line. -/
def scanLines (s : String) : List String :=
  if s = "" then []
  else (if strEnds s "\n" then (strSplitChar s '\n').dropLast
        else strSplitChar s '\n').map dropCR

/-! ## Request parsing (`internal/request/request.go`) -/

/-- `request.Request`.  `From` is `data.Hash`, a string. -/
structure Request where
  Repo : String := ""
  Section : String := ""
  Revision : String := ""
  Path : String := ""
  From : String := ""
  DiffFrom : String := ""
  DiffTo : String := ""
deriving Repr, DecidableEq

/-- The two classified request errors, `ErrMalformed` and
`ErrUnknownSection`. -/
inductive ReqError where
  | malformed
  | unknownSection
deriving Repr, DecidableEq

/-- The part of `net/url.URL` the parser consumes: the path and the
query parameters (`url.Query().Get`). -/
structure URL where
  path : String
  query : List (String × String) := []
deriving Repr, DecidableEq

/-- `url.Query().Get k`: first value for key `k`, `""` when absent. -/
def URL.queryGet (u : URL) (k : String) : String :=
  ((u.query.find? (fun q => q.1 == k)).map (·.2)).getD ""

/-- `request.splitPath`: split on `/` and drop leading empty
segments. -/
def splitPath (path : String) : List String :=
  (strSplitChar path '/').dropWhile (· = "")

/-- `[0-9a-f]`. -/
def isHexDigit (c : Char) : Bool :=
  ('0' ≤ c && c ≤ '9') || ('a' ≤ c && c ≤ 'f')

/-- The anchored regexp `^objects/[0-9a-f]{2}/[0-9a-f]{38}$`
(`objectPath`). Hex digits cannot be `/`, so full-match is equivalent
to this three-segment decomposition. -/
def objectPathMatch (t : String) : Bool :=
  match strSplitChar t '/' with
  | ["objects", a, b] =>
    a.length == 2 && a.data.all isHexDigit && b.length == 38 && b.data.all isHexDigit
  | _ => false

/-- The anchored regexp
`^objects/pack/pack-[0-9a-f]{40}.(pack|idx)$` (`packPath`).  The `.` is
unescaped in the source, so it matches any character other than a
newline. -/
def packPathMatch (t : String) : Bool :=
  strStarts t "objects/pack/pack-" &&
  (let rest := t.drop 18
   (rest.take 40).data.all isHexDigit &&
   rest.data.get? 40 != some '\n' &&
   ((rest.length == 45 && rest.drop 41 == "pack") ||
    (rest.length == 44 && rest.drop 41 == "idx")))

/-- The `switch len(splitPath)` body of `parseCloneRequest` that decides
whether the remaining segments are a recognized transfer sub-path. -/
def cloneDone : List String → Bool
  | [s] => s = "HEAD"
  | [s1, s2] => pathJoin [s1, s2] = "info/refs"
  | [s1, s2, s3] =>
    pathJoin [s1, s2] = "objects/info" ||
    objectPathMatch (pathJoin [s1, s2, s3]) ||
    packPathMatch (pathJoin [s1, s2, s3])
  | _ => false

/-- The accumulation loop of `parseCloneRequest`: while more than one
segment remains, move one segment into the repository path and test the
rest; on a hit the request is a dumb-transfer (`"dumbClone"`) request
for the joined remaining sub-path. -/
def cloneLoop (repo : String) : List String → Option Request
  | [] => none
  | [_] => none
  | s :: t :: ts =>
    if cloneDone (t :: ts) then
      some { Repo := pathJoin [repo, s], Section := "dumbClone", Path := pathJoin (t :: ts) }
    else
      cloneLoop (pathJoin [repo, s]) (t :: ts)

/-- `request.parseCloneRequest`; `none` stands for
`errInvalidClonePath` (swallowed by `Parse`). -/
def parseCloneRequest (u : URL) : Option Request :=
  cloneLoop "" (splitPath u.path)

/-- The repository-accumulation loop of `parseWebRequest`: segments are
joined into the repository path until a literal `-`; the returned list
is what follows the `-` (everything was consumed when no `-` exists). -/
def webLoop (repo : String) : List String → String × List String
  | [] => (repo, [])
  | s :: rest => if s = "-" then (repo, rest) else webLoop (pathJoin [repo, s]) rest

/-- The `switch len(splitPath)` assignment of `parseWebRequest`:
section, then revision, then the `/`-joined sub-path. -/
def webAssign (repo : String) : List String → Request
  | [] => { Repo := repo }
  | [s] => { Repo := repo, Section := s }
  | [s, rev] => { Repo := repo, Section := s, Revision := rev }
  | s :: rev :: p :: ps =>
    { Repo := repo, Section := s, Revision := rev,
      Path := String.intercalate "/" (p :: ps) }

/-- The query and forbidden-field checks on the assigned request after
`r.From` has been set: `from` outside `log` is malformed, `refs`
forbids a revision and (falling through) a sub-path, and `log` and
`commit` forbid a sub-path. -/
def webFromCheck (r : Request) : Except ReqError Request :=
  if r.From ≠ "" ∧ r.Section ≠ "log" then .error .malformed
  else if r.Section = "refs" ∧ r.Revision ≠ "" then .error .malformed
  else if (r.Section = "refs" ∨ r.Section = "log" ∨ r.Section = "commit")
          ∧ r.Path ≠ "" then .error .malformed
  else .ok r

/-- The validation tail of `parseWebRequest`: the `diff` range split
(which returns early before any `from` handling), then `From`
assignment and `webFromCheck`. -/
def webValidate (r : Request) (u : URL) : Except ReqError Request :=
  if r.Section = "diff" then
    match strSplitDotDot r.Revision with
    | [f, t] => .ok { r with Revision := "", DiffFrom := f, DiffTo := t }
    | _ => .error .malformed
  else
    webFromCheck { r with From := u.queryGet "from" }

/-- `request.parseWebRequest`. -/
def parseWebRequest (u : URL) : Except ReqError Request :=
  match splitPath u.path with
  | [] => .ok { Section := "repo" }
  | s :: rest =>
    match webLoop s rest with
    | (repo, []) => .ok { Repo := repo, Section := "head" }
    | (repo, t :: ts) => webValidate (webAssign repo (t :: ts)) u

/-- `request.Parse`: the clone grammar is attempted first; its failure
falls through to the browsing grammar. -/
def Parse (u : URL) : Except ReqError Request :=
  match parseCloneRequest u with
  | some r => .ok r
  | none => parseWebRequest u

/-- `request.WebSections` (the middleware refers to the same list as
`request.Sections`). -/
def WebSections : String := "head tree blob raw diff refs log commit"

/-! ## The HTTP layer's routing decision (`ServeHTTP`) -/

/-- The sections with a `case` arm in `ServeHTTP`'s dispatch switch. -/
def handledSections : List String :=
  ["repo", "head", "tree", "blob", "raw", "refs", "log", "commit", "diff", "dumbClone"]

/-- What `DGit.ServeHTTP` decides from the parse result alone: an HTTP
status written immediately, or dispatch to a section handler. -/
inductive ServeOutcome where
  | dispatch (sec : String)
  | status (code : Nat)
deriving Repr, DecidableEq

/-- The pure routing core of `DGit.ServeHTTP`: `ErrMalformed` → 400,
`ErrUnknownSection` → 404, known sections dispatch, anything else →
400 via the `default` arm. -/
def serveHTTP (u : URL) : ServeOutcome :=
  match Parse u with
  | .error .malformed => .status 400
  | .error .unknownSection => .status 404
  | .ok r => if handledSections.contains r.Section then .dispatch r.Section else .status 400

/-! ## Spec-modelled smart-transfer classification

The repository's own parser test (`TestParse`) and its changelog refer
to a `smartClone` section, but the code classifying a transfer request
as smart is not among the sources; only the dumb-transfer
classification above is.  The classification step is therefore modelled
from the specification and layered over the embedded transfer
grammar. -/

/-- Modelled from the spec: the smart/dumb classification of an
accepted transfer request, which is missing from the sources (only its
test expects the `smartClone` section).  "Classify as `smart-transfer`
when the query parameter `service=git-upload-pack` is present together
with an `info/refs` sub-path, or when the sub-path is literally
`git-upload-pack`; otherwise `dumb-transfer`." -/
def classifyTransfer (u : URL) (subPath : String) : String :=
  if (u.queryGet "service" = "git-upload-pack" ∧ subPath = "info/refs")
      ∨ subPath = "git-upload-pack" then "smartClone"
  else "dumbClone"

/-- The transfer-grammar loop of `parseCloneRequest` with the modelled
smart/dumb classification applied to the accepted sub-path. -/
def cloneLoopM (u : URL) (repo : String) : List String → Option Request
  | [] => none
  | [_] => none
  | s :: t :: ts =>
    if cloneDone (t :: ts) then
      some { Repo := pathJoin [repo, s], Section := classifyTransfer u (pathJoin (t :: ts)),
             Path := pathJoin (t :: ts) }
    else
      cloneLoopM u (pathJoin [repo, s]) (t :: ts)

/-- `parseCloneRequest` with the modelled classification. -/
def parseCloneRequestM (u : URL) : Option Request :=
  cloneLoopM u "" (splitPath u.path)

/-! ## Repository resolution and redirects
(`internal/middleware/middleware.go`, `internal/repo`)

The filesystem is abstracted to a `stat` map, and a repository that
passes `shouldServe` is assumed to open (`repo.NewRepo` is the external
repository-access collaborator). -/

/-- The slice of `os.FileInfo` that `IsRepo` consumes. -/
structure FStat where
  isDir : Bool
deriving Repr, DecidableEq

/-- An abstract filesystem: `os.Stat` as a partial map from paths. -/
def FS := String → Option FStat

/-- `repo.IsRepo`: the path has an `objects` entry that is a directory
and a `HEAD` entry. -/
def IsRepo (fs : FS) (path : String) : Bool :=
  match fs (pathJoin [path, "objects"]), fs (pathJoin [path, "HEAD"]) with
  | some objInfo, some _ => objInfo.isDir
  | _, _ => false

/-- The part of `config.Config` the middleware reads.  `projectList`
stands for the contents of the file at `ProjectListPath`; `none` means
`ProjectListPath` is empty (no filtering). -/
structure Config where
  RepoBasePath : String := ""
  RemoveSuffix : Bool := false
  projectList : Option (List String) := none

/-- `middleware.shouldServe`: `IsRepo` under the base path, and
membership in the project list when one is configured. -/
def shouldServe (fs : FS) (c : Config) (slug : String) : Bool :=
  IsRepo fs (pathJoin [c.RepoBasePath, slug]) &&
  match c.projectList with
  | none => true
  | some projects => projects.contains slug

/-- `middleware.tryToOpenRepo`, with `repo.NewRepo` (the external open
operation) assumed to succeed on anything `shouldServe` accepts. -/
def tryToOpenRepo (fs : FS) (c : Config) (slug : String) : Option String :=
  if shouldServe fs c slug then some slug else none

/-- The resolution sequence of `middleware.Repo`: the parsed repository
path itself and, only when `RemoveSuffix` is set, the `.git` and
`/.git` fallbacks in that order. -/
def resolveRepo (fs : FS) (c : Config) (repoPath : String) : Option String :=
  match tryToOpenRepo fs c repoPath with
  | some rep => some rep
  | none =>
    if c.RemoveSuffix then
      match tryToOpenRepo fs c (repoPath ++ ".git") with
      | some rep => some rep
      | none => tryToOpenRepo fs c (pathJoin [repoPath, ".git"])
    else none

/-- `request.Sections`, the keyword list the middleware scans; the
request package spells the same list `WebSections`. -/
def Sections : String := WebSections

/-- The per-candidate test of `tryDashRedirect`: the prefix resolves
directly, or — when `RemoveSuffix` is set — with a `.git` or `/.git`
suffix. -/
def dashResolves (fs : FS) (c : Config) (cPath : String) : Bool :=
  shouldServe fs c cPath ||
  (c.RemoveSuffix &&
    (shouldServe fs c (cPath ++ ".git") || shouldServe fs c (pathJoin [cPath, ".git"])))

/-- The back-to-front scan of `tryDashRedirect` over split points
`i = len-1, …, 1`: at the first index whose segment is a section
keyword and whose prefix resolves, redirect to the path with `-`
inserted before that segment. -/
def dashGo (fs : FS) (c : Config) (elems : List String) : Nat → Option String
  | 0 => none
  | i + 1 =>
    let cPath := pathJoin (elems.take (i + 1))
    if (strFields Sections).contains (elems.getD (i + 1) "") ∧ dashResolves fs c cPath then
      some (pathJoin ["/" ++ cPath, "-", pathJoin (elems.drop (i + 1))])
    else
      dashGo fs c elems i

/-- `middleware.tryDashRedirect`; `some loc` stands for writing a 301
with `location: loc`. -/
def tryDashRedirect (fs : FS) (c : Config) (req : Request) : Option String :=
  let pathElems := strSplitChar req.Repo '/'
  dashGo fs c pathElems (pathElems.length - 1)

/-- The `cRepo` computation of `trySuffixRedirect`'s `RemoveSuffix`
arm: strip a trailing `.git`, then a trailing `/`. -/
def suffixTrim (repo : String) : String := trimSuffix (trimSuffix repo ".git") "/"

/-- `middleware.trySuffixRedirect`; `some loc` stands for writing a 301
with `location: loc`.  In the `RemoveSuffix = false` arm the source
tests `req.Repo + ".git"` twice, first the plain concatenation and then
the `filepath.Join` form (which also cleans), the later hit overwriting
the earlier location; the embedding renders the overwrite by preferring
the cleaned form. -/
def trySuffixRedirect (fs : FS) (c : Config) (req : Request) : Option String :=
  match c.RemoveSuffix with
  | true =>
    if shouldServe fs c (suffixTrim req.Repo ++ ".git")
        || shouldServe fs c (pathJoin [suffixTrim req.Repo, ".git"]) then
      some (pathJoin [suffixTrim req.Repo, "-", req.Section, req.Revision, req.Path])
    else none
  | false =>
    if shouldServe fs c (pathJoin [req.Repo ++ ".git"]) then
      some (pathJoin [pathJoin [req.Repo ++ ".git"], "-", req.Section, req.Revision, req.Path])
    else if shouldServe fs c (req.Repo ++ ".git") then
      some (pathJoin [req.Repo ++ ".git", "-", req.Section, req.Revision, req.Path])
    else none

/-- What `middleware.Repo` does with a request: hand the opened
repository to the wrapped handler, write a 301, or fall through to the
handler with no repository (which then reports not-found). -/
inductive RepoOutcome where
  | serve (slug : String)
  | redirect (loc : String)
  | fallthru
deriving Repr, DecidableEq

/-- The control flow of `middleware.Repo`: resolution first; on failure
the dash redirect, but only for section `head`; then the suffix
redirect; then fall through. -/
def repoMiddleware (fs : FS) (c : Config) (req : Request) : RepoOutcome :=
  match resolveRepo fs c req.Repo with
  | some slug => .serve slug
  | none =>
    if req.Section = "head" then
      match tryDashRedirect fs c req with
      | some loc => .redirect loc
      | none =>
        match trySuffixRedirect fs c req with
        | some loc => .redirect loc
        | none => .fallthru
    else
      match trySuffixRedirect fs c req with
      | some loc => .redirect loc
      | none => .fallthru

/-! ## The diff presenter (`data/data.go`, `FilePatch.Info`) -/

/-- `data.Operation`. -/
inductive Operation where
  | Equal
  | Add
  | Delete
deriving Repr, DecidableEq

/-- `data.Chunk` (the Go field `Type` is a Lean keyword, hence
`Type'`). -/
structure Chunk where
  Content : String
  Type' : Operation
deriving Repr, DecidableEq

/-- `data.PatchInfo`; the zero value has empty numbers and operation
`Equal`, so the ellipsis row `PatchInfo{Content: ". . ."}` is
`{ Content := ". . ." }`. -/
structure PatchInfo where
  Left : String := ""
  Right : String := ""
  Operation : Operation := .Equal
  Content : String := ""
deriving Repr, DecidableEq

/-- `data.FilePatch`. -/
structure FilePatch where
  IsBinary : Bool
  File : String := ""
  Chunks : List Chunk
deriving Repr, DecidableEq

/-- The package variable `data.DiffContext` at its default value. -/
def DiffContext : Nat := 3

/-- Decimal digits of `n`, most significant first; `fuel` bounds the
recursion (`n + 1` always suffices). -/
def natToStrCore : Nat → Nat → List Char
  | 0, _ => []
  | fuel + 1, n =>
    if n < 10 then [Nat.digitChar n]
    else natToStrCore fuel (n / 10) ++ [Nat.digitChar (n % 10)]

/-- Go `strconv.Itoa` on the naturals the counters range over. -/
def natToStr (n : Nat) : String := ⟨natToStrCore (n + 1) n⟩

/-- The local state of `FilePatch.Info`'s expansion loop. -/
structure ExpSt where
  lineNum : Nat := 0
  lines : List Nat := []
  fullInfo : List PatchInfo := []
  left : Nat := 1
  right : Nat := 1
deriving Repr, DecidableEq

/-- One iteration of the scanner loop: emit the row for one line of a
chunk of type `ty` and advance the counters (both for `Equal`, right
only for `Add`, left only for `Delete`; `Add`/`Delete` record the row
index as a changed index). -/
def expandLine (ty : Operation) (text : String) (st : ExpSt) : ExpSt :=
  match ty with
  | .Equal =>
    { st with
      fullInfo := st.fullInfo ++
        [{ Left := natToStr st.left, Right := natToStr st.right,
           Operation := .Equal, Content := " " ++ text }]
      left := st.left + 1, right := st.right + 1, lineNum := st.lineNum + 1 }
  | .Add =>
    { st with
      fullInfo := st.fullInfo ++
        [{ Right := natToStr st.right, Operation := .Add, Content := "+" ++ text }]
      lines := st.lines ++ [st.lineNum]
      right := st.right + 1, lineNum := st.lineNum + 1 }
  | .Delete =>
    { st with
      fullInfo := st.fullInfo ++
        [{ Left := natToStr st.left, Operation := .Delete, Content := "-" ++ text }]
      lines := st.lines ++ [st.lineNum]
      left := st.left + 1, lineNum := st.lineNum + 1 }

/-- The scanner loop over one chunk's lines. -/
def expandChunk (ty : Operation) : List String → ExpSt → ExpSt
  | [], st => st
  | t :: ts, st => expandChunk ty ts (expandLine ty t st)

/-- The outer loop of the expansion pass over all chunks. -/
def expandChunks : List Chunk → ExpSt → ExpSt
  | [], st => st
  | ch :: cs, st => expandChunks cs (expandChunk ch.Type' (scanLines ch.Content) st)

/-- The `context` search of the windowing pass: expanded row `i` is
within `DiffContext` of some changed index (the three-way case split of
the source; the only subtraction is on a Go `int`, embedded on `Int`). -/
def inContext (lines : List Nat) (i : Nat) : Bool :=
  lines.any fun diffLine =>
    decide ((i < diffLine ∧ i + DiffContext ≥ diffLine) ∨ i = diffLine ∨
      (i > diffLine ∧ (i : Int) - (DiffContext : Int) ≤ (diffLine : Int)))

/-- `PatchInfo{Content: ". . ."}`. -/
def ellipsisRow : PatchInfo := { Content := ". . ." }

/-- The windowing loop: survivors are kept; a non-survivor directly
after a survivor becomes one ellipsis row (`inDiff` tracks this). -/
def windowLoop (lines : List Nat) : Nat → Bool → List PatchInfo → List PatchInfo
  | _, _, [] => []
  | i, inDiff, r :: rs =>
    if inContext lines i then r :: windowLoop lines (i + 1) true rs
    else if inDiff then ellipsisRow :: windowLoop lines (i + 1) false rs
    else windowLoop lines (i + 1) false rs

/-- The two classified failures of `FilePatch.Info`: `errBinaryPatch`,
and the index-out-of-range panic of the final
`info[len(info)-1]` access on an empty slice. -/
inductive InfoErr where
  | binaryPatch
  | indexPanic
deriving Repr, DecidableEq

/-- `data.FilePatch.Info`: binary short-circuit, expansion, windowing,
and the trailing-ellipsis strip (whose subscript panics on an empty
result, modelled as `InfoErr.indexPanic`).  The scanner error branch is
dead (`strings.Reader` never fails). -/
def FilePatch.Info (fp : FilePatch) : Except InfoErr (List PatchInfo) :=
  if fp.IsBinary then .error .binaryPatch
  else
    let st := expandChunks fp.Chunks {}
    let info := windowLoop st.lines 0 false st.fullInfo
    match info.getLast? with
    | none => .error .indexPanic
    | some last => if last.Content = ". . ." then .ok info.dropLast else .ok info

/-! ## Concrete fixtures used by counterexamples and witnesses -/

/-- A filesystem on which only `proj.git` is a repository. -/
def fsProj : FS := fun p =>
  if p = "proj.git/objects" then some ⟨true⟩
  else if p = "proj.git/HEAD" then some ⟨false⟩
  else none

/-- A filesystem on which only `proj` is a repository. -/
def fsNested : FS := fun p =>
  if p = "proj/objects" then some ⟨true⟩
  else if p = "proj/HEAD" then some ⟨false⟩
  else none

/-- A non-binary patch: five unchanged lines, then one deleted line. -/
def fpLeadingRun : FilePatch :=
  { IsBinary := false, Chunks := [⟨"a\nb\nc\nd\ne\n", .Equal⟩, ⟨"x\n", .Delete⟩] }

/-- A non-binary patch whose chunks hold one line and no change. -/
def fpAllEqual : FilePatch :=
  { IsBinary := false, Chunks := [{ Content := "hello\n", Type' := .Equal }] }

/-! ## Helper lemmas about the parser -/

/-- Every request the transfer grammar accepts is a `dumbClone` request
with only `Repo` and `Path` populated. -/
lemma cloneLoop_shape : ∀ (segs : List String) (repo : String) (r : Request),
    cloneLoop repo segs = some r →
    r.Section = "dumbClone" ∧ r.Revision = "" ∧ r.From = "" ∧
      r.DiffFrom = "" ∧ r.DiffTo = "" := by
  intro segs
  induction segs with
  | nil => intro repo r h; simp [cloneLoop] at h
  | cons s rest ih =>
    intro repo r h
    cases rest with
    | nil => simp [cloneLoop] at h
    | cons t ts =>
      simp only [cloneLoop] at h
      split at h
      · injection h with h; subst h; exact ⟨rfl, rfl, rfl, rfl, rfl⟩
      · exact ih _ _ h

/-- The only error `webFromCheck` produces is `ErrMalformed`. -/
lemma webFromCheck_error (r : Request) (e : ReqError)
    (h : webFromCheck r = .error e) : e = .malformed := by
  unfold webFromCheck at h
  split_ifs at h
  · injection h with h; exact h.symm
  · injection h with h; exact h.symm
  · injection h with h; exact h.symm

/-- On success `webFromCheck` is the identity, and a nonempty `From`
implies section `log`. -/
lemma webFromCheck_ok (r out : Request)
    (h : webFromCheck r = .ok out) :
    out = r ∧ (r.From ≠ "" → r.Section = "log") := by
  unfold webFromCheck at h
  split_ifs at h with h1 h2 h3
  injection h with h
  subst h
  refine ⟨rfl, fun hne => ?_⟩
  by_contra hlog
  exact h1 ⟨hne, hlog⟩

/-- The only error `webValidate` produces is `ErrMalformed`. -/
lemma webValidate_error (r : Request) (u : URL) (e : ReqError)
    (h : webValidate r u = .error e) : e = .malformed := by
  unfold webValidate at h
  split at h
  · split at h
    · exact Except.noConfusion h
    · injection h with h; exact h.symm
  · exact webFromCheck_error _ _ h

/-- What `webValidate` guarantees on success, split by the `diff`
early-return. -/
lemma webValidate_ok (r : Request) (u : URL) (out : Request)
    (h : webValidate r u = .ok out) :
    (r.Section = "diff" →
      out.Revision = "" ∧ strSplitDotDot r.Revision = [out.DiffFrom, out.DiffTo] ∧
        out.Section = "diff" ∧ out.From = r.From) ∧
    (r.Section ≠ "diff" →
      out = { r with From := u.queryGet "from" } ∧
        (out.From ≠ "" → out.Section = "log")) := by
  unfold webValidate at h
  split at h
  case isTrue hd =>
    refine ⟨fun _ => ?_, fun hne => absurd hd hne⟩
    split at h
    case h_1 f t hsplit =>
      injection h with h; subst h
      exact ⟨rfl, hsplit, hd, rfl⟩
    case h_2 => exact Except.noConfusion h
  case isFalse hd =>
    refine ⟨fun hs => absurd hs hd, fun _ => ?_⟩
    obtain ⟨ho, himp⟩ := webFromCheck_ok _ _ h
    subst ho
    exact ⟨rfl, himp⟩

/-- `webAssign` never populates `From`. -/
lemma webAssign_From (repo : String) (l : List String) :
    (webAssign repo l).From = "" := by
  match l with
  | [] => rfl
  | [_] => rfl
  | [_, _] => rfl
  | _ :: _ :: _ :: _ => rfl

/-- A successful `Parse` came from the clone grammar or from the
browsing grammar with the clone grammar failing. -/
lemma Parse_ok_cases (u : URL) (r : Request) (h : Parse u = .ok r) :
    parseCloneRequest u = some r ∨
      (parseCloneRequest u = none ∧ parseWebRequest u = .ok r) := by
  unfold Parse at h
  split at h
  next r' heq => injection h with h; subst h; exact Or.inl heq
  next heq => exact Or.inr ⟨heq, h⟩

/-- A successful `parseWebRequest` is the root request, a no-dash
`head` request, or the validated form of a dash request. -/
lemma parseWebRequest_ok (u : URL) (r : Request) (h : parseWebRequest u = .ok r) :
    r = { Section := "repo" } ∨
      (∃ repo, r = { Repo := repo, Section := "head" }) ∨
      (∃ repo t ts, webValidate (webAssign repo (t :: ts)) u = .ok r) := by
  unfold parseWebRequest at h
  split at h
  · injection h with h; exact Or.inl h.symm
  next _acc s rest _heq =>
    rcases hw : webLoop s rest with ⟨repo, rest'⟩
    rw [hw] at h
    cases rest' with
    | nil => injection h with h; exact Or.inr (Or.inl ⟨repo, h.symm⟩)
    | cons t ts => exact Or.inr (Or.inr ⟨repo, t, ts, h⟩)

/-- `Parse` never fails with `ErrUnknownSection`. -/
lemma Parse_error_malformed (u : URL) (e : ReqError)
    (h : Parse u = .error e) : e = .malformed := by
  unfold Parse at h
  split at h
  · exact Except.noConfusion h
  next heq =>
    unfold parseWebRequest at h
    split at h
    · exact Except.noConfusion h
    next _acc s rest _heq =>
      rcases hw : webLoop s rest with ⟨repo, rest'⟩
      rw [hw] at h
      cases rest' with
      | nil => exact Except.noConfusion h
      | cons t ts => exact webValidate_error _ _ _ h

/-! ## Claim C1 -/

/-- C1, counterexample: a browsing path whose segment after the `-`
separator is the unrecognized section keyword `bogus`, yet
`Parse` succeeds (no `UnknownSectionError`), and the HTTP layer answers
400 through the dispatch `default` arm, not 404. -/
theorem c1_counterexample :
    Parse ⟨"/repo/-/bogus", []⟩ = .ok { Repo := "repo", Section := "bogus" } ∧
    serveHTTP ⟨"/repo/-/bogus", []⟩ = .status 400 ∧
    (ServeOutcome.status 400 : ServeOutcome) ≠ .status 404 :=
  ⟨rfl, rfl, by decide⟩

/-- C1, amended: `Parse` never fails with `UnknownSectionError` — its
only failure is `MalformedError`, which the HTTP layer maps to 400;
a request whose parsed section has no dispatch arm (in particular any
unrecognized keyword after `-`) is answered 400 by the `default` arm,
not 404. -/
theorem c1_unknown_section_400 :
    (∀ (u : URL) (e : ReqError), Parse u = .error e →
      e = .malformed ∧ serveHTTP u = .status 400) ∧
    (∀ (u : URL) (r : Request), Parse u = .ok r →
      handledSections.contains r.Section = false → serveHTTP u = .status 400) := by
  constructor
  · intro u e h
    have hm := Parse_error_malformed u e h
    subst hm
    exact ⟨rfl, by simp [serveHTTP, h]⟩
  · intro u r h hc
    simp only [serveHTTP, h]
    rw [hc]
    simp

/-- C1, witness for the amended theorem at concrete inputs. -/
theorem c1_witness :
    ReqError.malformed = ReqError.malformed ∧
    serveHTTP ⟨"/w/-/refs/bad", []⟩ = .status 400 ∧
    serveHTTP ⟨"/w/-/nope", []⟩ = .status 400 :=
  ⟨(c1_unknown_section_400.1 ⟨"/w/-/refs/bad", []⟩ .malformed rfl).1,
   (c1_unknown_section_400.1 ⟨"/w/-/refs/bad", []⟩ .malformed rfl).2,
   c1_unknown_section_400.2 ⟨"/w/-/nope", []⟩ { Repo := "w", Section := "nope" } rfl rfl⟩

/-! ## Claim C3 -/

/-- C3, counterexample: a `diff` revision range with an empty side
parses successfully — `Parse` does not require the two revisions to be
non-empty. -/
theorem c3_counterexample :
    Parse ⟨"/repo/-/diff/a..", []⟩ =
      .ok { Repo := "repo", Section := "diff", DiffFrom := "a", DiffTo := "" } ∧
    Parse ⟨"/repo/-/diff/..", []⟩ =
      .ok { Repo := "repo", Section := "diff", DiffFrom := "", DiffTo := "" } :=
  ⟨rfl, rfl⟩

/-- C3, amended: for a `diff` request the revision segment must split
on `..` into exactly two parts — anything else is `MalformedError` —
and on success the bare `Revision` field is empty and `DiffFrom`,
`DiffTo` are exactly the two parts; the parts themselves may be empty
strings. -/
theorem c3_diff_range :
    (∀ (r : Request) (u : URL) (out : Request), r.Section = "diff" →
      webValidate r u = .ok out →
      out.Revision = "" ∧ strSplitDotDot r.Revision = [out.DiffFrom, out.DiffTo]) ∧
    (∀ (r : Request) (u : URL), r.Section = "diff" →
      (strSplitDotDot r.Revision).length ≠ 2 →
      webValidate r u = .error .malformed) ∧
    (∀ (u : URL) (r : Request), Parse u = .ok r → r.Section = "diff" →
      r.Revision = "") := by
  refine ⟨?_, ?_, ?_⟩
  · intro r u out hs h
    have := (webValidate_ok r u out h).1 hs
    exact ⟨this.1, this.2.1⟩
  · intro r u hs hlen
    unfold webValidate
    rw [if_pos hs]
    split
    case h_1 f t hsplit => rw [hsplit] at hlen; simp at hlen
    case h_2 => rfl
  · intro u r h hs
    rcases Parse_ok_cases u r h with hc | ⟨-, hw⟩
    · have := (cloneLoop_shape _ _ _ hc).1
      rw [this] at hs; simp at hs
    · rcases parseWebRequest_ok u r hw with h1 | ⟨repo, h1⟩ | ⟨repo, t, ts, h1⟩
      · subst h1; simp at hs
      · subst h1; simp at hs
      · by_cases hd : (webAssign repo (t :: ts)).Section = "diff"
        · exact ((webValidate_ok _ _ _ h1).1 hd).1
        · obtain ⟨ho, -⟩ := (webValidate_ok _ _ _ h1).2 hd
          subst ho
          exact absurd hs hd

/-- C3, witness for the amended theorem at a concrete input. -/
theorem c3_witness :
    ({ Repo := "r", Section := "diff", DiffFrom := "v1", DiffTo := "v2" } : Request).Revision
      = "" ∧
    strSplitDotDot "v1..v2" = ["v1", "v2"] :=
  c3_diff_range.1 { Repo := "r", Section := "diff", Revision := "v1..v2" } ⟨"", []⟩
    { Repo := "r", Section := "diff", DiffFrom := "v1", DiffTo := "v2" } rfl rfl

/-! ## Claim C9 -/

/-- C9, counterexample: a `diff` request with a non-empty `from` query
parameter parses successfully — the `diff` branch returns before the
`from` check, so `from` is not rejected for section `diff`. -/
theorem c9_counterexample :
    URL.queryGet ⟨"/repo/-/diff/a..b", [("from", "x")]⟩ "from" = "x" ∧
    Parse ⟨"/repo/-/diff/a..b", [("from", "x")]⟩ =
      .ok { Repo := "repo", Section := "diff", DiffFrom := "a", DiffTo := "b" } :=
  ⟨rfl, rfl⟩

/-- C9, amended: a non-empty `from` only fails requests that reach the
post-`-` validation with a section other than `log`; clone requests,
the root request, no-`-` `head` requests and `diff` requests ignore the
parameter (so a successful parse with non-empty `from` has section
`log`, `diff`, `head`, `repo` or `dumbClone`), and the `From` field is
populated only for section `log`. -/
theorem c9_from_query :
    (∀ (u : URL) (r : Request), Parse u = .ok r → u.queryGet "from" ≠ "" →
      r.Section = "log" ∨ r.Section = "diff" ∨ r.Section = "head" ∨
        r.Section = "repo" ∨ r.Section = "dumbClone") ∧
    (∀ (u : URL) (r : Request), Parse u = .ok r → r.Section ≠ "log" →
      r.From = "") := by
  constructor
  · intro u r h hfrom
    rcases Parse_ok_cases u r h with hc | ⟨-, hw⟩
    · exact Or.inr (Or.inr (Or.inr (Or.inr (cloneLoop_shape _ _ _ hc).1)))
    · rcases parseWebRequest_ok u r hw with h1 | ⟨repo, h1⟩ | ⟨repo, t, ts, h1⟩
      · subst h1; exact Or.inr (Or.inr (Or.inr (Or.inl rfl)))
      · subst h1; exact Or.inr (Or.inr (Or.inl rfl))
      · by_cases hd : (webAssign repo (t :: ts)).Section = "diff"
        · exact Or.inr (Or.inl ((webValidate_ok _ _ _ h1).1 hd).2.2.1)
        · obtain ⟨ho, himp⟩ := (webValidate_ok _ _ _ h1).2 hd
          refine Or.inl (himp ?_)
          rw [ho]
          exact hfrom
  · intro u r h hlog
    rcases Parse_ok_cases u r h with hc | ⟨-, hw⟩
    · exact (cloneLoop_shape _ _ _ hc).2.2.1
    · rcases parseWebRequest_ok u r hw with h1 | ⟨repo, h1⟩ | ⟨repo, t, ts, h1⟩
      · subst h1; rfl
      · subst h1; rfl
      · by_cases hd : (webAssign repo (t :: ts)).Section = "diff"
        · have := ((webValidate_ok _ _ _ h1).1 hd).2.2.2
          rw [this, webAssign_From]
        · obtain ⟨ho, himp⟩ := (webValidate_ok _ _ _ h1).2 hd
          by_contra hne
          exact hlog (himp hne)

/-- C9, witness for the amended theorem at concrete inputs. -/
theorem c9_witness :
    (({ Repo := "r", Section := "log", Revision := "main", From := "abc" } : Request).Section
        = "log" ∨
      ({ Repo := "r", Section := "log", Revision := "main", From := "abc" } : Request).Section
        = "diff" ∨
      ({ Repo := "r", Section := "log", Revision := "main", From := "abc" } : Request).Section
        = "head" ∨
      ({ Repo := "r", Section := "log", Revision := "main", From := "abc" } : Request).Section
        = "repo" ∨
      ({ Repo := "r", Section := "log", Revision := "main", From := "abc" } : Request).Section
        = "dumbClone") ∧
    ({ Repo := "r", Section := "tree", Revision := "m" } : Request).From = "" :=
  ⟨c9_from_query.1 ⟨"/r/-/log/main", [("from", "abc")]⟩
      { Repo := "r", Section := "log", Revision := "main", From := "abc" } rfl (by decide),
   c9_from_query.2 ⟨"/r/-/tree/m", [("x", "y")]⟩
      { Repo := "r", Section := "tree", Revision := "m" } rfl (by decide)⟩

/-! ## Claim C4 -/

/-- C4, counterexample: with `RemoveSuffix` off, a repository existing
only at `proj.git` is not found for the path `proj` — the `.git`
fallback is not tried, contradicting "this order is tried regardless of
the suffix policy". -/
theorem c4_counterexample :
    resolveRepo fsProj {} "proj" = none ∧
    IsRepo fsProj (pathJoin [({} : Config).RepoBasePath, "proj.git"]) = true ∧
    ({} : Config).RemoveSuffix = false :=
  ⟨rfl, rfl, rfl⟩

/-- C4, amended: the resolver always tries the unmodified path; the
`.git` and `/.git` candidates are tried, in that order, only when
`RemoveSuffix` is set, and the first candidate passing `shouldServe`
(`IsRepo` under the base path plus project-list membership) wins. -/
theorem c4_resolution_order (fs : FS) (c : Config) (p q : String) :
    resolveRepo fs c p = some q ↔
      (q = p ∧ shouldServe fs c p = true) ∨
      (c.RemoveSuffix = true ∧ shouldServe fs c p = false ∧
        q = p ++ ".git" ∧ shouldServe fs c (p ++ ".git") = true) ∨
      (c.RemoveSuffix = true ∧ shouldServe fs c p = false ∧
        shouldServe fs c (p ++ ".git") = false ∧
        q = pathJoin [p, ".git"] ∧ shouldServe fs c (pathJoin [p, ".git"]) = true) := by
  constructor
  · intro h
    unfold resolveRepo tryToOpenRepo at h
    by_cases h1 : shouldServe fs c p
    · rw [if_pos h1] at h
      injection h with h
      exact Or.inl ⟨h.symm, h1⟩
    · rw [if_neg h1] at h
      dsimp only at h
      cases hr : c.RemoveSuffix
      · rw [hr] at h; simp at h
      · rw [hr] at h
        simp only [if_true] at h
        by_cases h2 : shouldServe fs c (p ++ ".git")
        · rw [if_pos h2] at h
          injection h with h
          exact Or.inr (Or.inl ⟨rfl, by simpa using h1, h.symm, h2⟩)
        · rw [if_neg h2] at h
          dsimp only at h
          by_cases h3 : shouldServe fs c (pathJoin [p, ".git"])
          · rw [if_pos h3] at h
            injection h with h
            exact Or.inr (Or.inr ⟨rfl, by simpa using h1, by simpa using h2, h.symm, h3⟩)
          · rw [if_neg h3] at h
            exact Option.noConfusion h
  · intro h
    unfold resolveRepo tryToOpenRepo
    rcases h with ⟨hq, h1⟩ | ⟨hr, h1, hq, h2⟩ | ⟨hr, h1, h2, hq, h3⟩
    · rw [if_pos h1, hq]
    · rw [if_neg (by simp [h1]), hr]
      simp only [if_true]
      rw [if_pos h2, hq]
    · rw [if_neg (by simp [h1]), hr]
      simp only [if_true]
      rw [if_neg (by simp [h2])]
      dsimp only
      rw [if_pos h3, hq]

/-- C4, witness: with `RemoveSuffix` on, the `.git` fallback is found
through the amended characterization. -/
theorem c4_witness :
    resolveRepo fsProj { RemoveSuffix := true } "proj" = some "proj.git" :=
  (c4_resolution_order fsProj { RemoveSuffix := true } "proj" "proj.git").mpr
    (Or.inr (Or.inl ⟨rfl, rfl, rfl, rfl⟩))

/-! ## Claim C5 -/

/-- C5, counterexample: a `diff` request for `proj` whose repository
lives at `proj.git` is suffix-redirected to a target that drops the
`a..b` revision range entirely (and carries no leading slash), so the
redirect is not the original request with only the repository path
corrected. -/
theorem c5_counterexample :
    Parse ⟨"/proj/-/diff/a..b", []⟩ =
      .ok { Repo := "proj", Section := "diff", DiffFrom := "a", DiffTo := "b" } ∧
    trySuffixRedirect fsProj {}
      { Repo := "proj", Section := "diff", DiffFrom := "a", DiffTo := "b" } =
      some "proj.git/-/diff" ∧
    ("proj.git/-/diff" : String) ≠ "/proj.git/-/diff/a..b" :=
  ⟨rfl, rfl, by decide⟩

/-- C5, amended: every successful suffix redirect points at the join of
a corrected repository path with `-`, the section, the bare revision
and the sub-path; a `diff` revision range (`DiffFrom`/`DiffTo`) and the
log cursor are not re-encoded, so for `diff` requests the range is
lost. -/
theorem c5_suffix_redirect_target (fs : FS) (c : Config) (req : Request) (loc : String)
    (h : trySuffixRedirect fs c req = some loc) :
    ∃ cRepo, loc = pathJoin [cRepo, "-", req.Section, req.Revision, req.Path] := by
  unfold trySuffixRedirect at h
  split at h
  · split at h
    · injection h with h; exact ⟨_, h.symm⟩
    · exact Option.noConfusion h
  · split at h
    · injection h with h; exact ⟨_, h.symm⟩
    · split at h
      · injection h with h; exact ⟨_, h.symm⟩
      · exact Option.noConfusion h

/-- C5, witness for the amended theorem at the counterexample input. -/
theorem c5_witness :
    ∃ cRepo, "proj.git/-/diff" = pathJoin [cRepo, "-", "diff", "", ""] :=
  c5_suffix_redirect_target fsProj {}
    { Repo := "proj", Section := "diff", DiffFrom := "a", DiffTo := "b" }
    "proj.git/-/diff" rfl

/-! ## Claim C2 -/

/-- The section of every request the modelled transfer parser accepts
is the modelled classification of its sub-path. -/
lemma cloneLoopM_section (u : URL) : ∀ (segs : List String) (repo : String) (r : Request),
    cloneLoopM u repo segs = some r → r.Section = classifyTransfer u r.Path := by
  intro segs
  induction segs with
  | nil => intro repo r h; simp [cloneLoopM] at h
  | cons s rest ih =>
    intro repo r h
    cases rest with
    | nil => simp [cloneLoopM] at h
    | cons t ts =>
      simp only [cloneLoopM] at h
      split at h
      · injection h with h; subst h; rfl
      · exact ih _ _ h

/-- C2 (spec-modelled): every request accepted by the transfer grammar
is classified `smartClone` exactly when `service=git-upload-pack`
accompanies an `info/refs` sub-path or the sub-path is literally
`git-upload-pack`, and every other accepted request is `dumbClone`. -/
theorem c2_smart_classification (u : URL) (r : Request)
    (h : parseCloneRequestM u = some r) :
    (r.Section = "smartClone" ↔
      ((u.queryGet "service" = "git-upload-pack" ∧ r.Path = "info/refs") ∨
        r.Path = "git-upload-pack")) ∧
    (r.Section = "smartClone" ∨ r.Section = "dumbClone") := by
  have hsec : r.Section = classifyTransfer u r.Path := cloneLoopM_section u _ _ _ h
  constructor
  · rw [hsec]
    unfold classifyTransfer
    split_ifs with hcond
    · exact ⟨fun _ => hcond, fun _ => rfl⟩
    · exact ⟨fun hs => absurd hs (by decide), fun hc => absurd hc hcond⟩
  · rw [hsec]
    unfold classifyTransfer
    split_ifs
    · exact Or.inl rfl
    · exact Or.inr rfl

/-- C2, witness at the smart-transfer test input. -/
theorem c2_witness :
    (("smartClone" : String) = "smartClone" ↔
      ((("git-upload-pack" : String) = "git-upload-pack" ∧
          ("info/refs" : String) = "info/refs") ∨
        ("info/refs" : String) = "git-upload-pack")) ∧
    (("smartClone" : String) = "smartClone" ∨ ("smartClone" : String) = "dumbClone") :=
  c2_smart_classification ⟨"/testRepo/info/refs", [("service", "git-upload-pack")]⟩
    { Repo := "testRepo", Section := "smartClone", Path := "info/refs" } rfl

/-! ## Claim C6 -/

/-- The condition under which `tryDashRedirect`'s scan stops at split
point `i`: the segment there is a known section keyword and the prefix
before it resolves (respecting the suffix policy). -/
def dashHit (fs : FS) (c : Config) (elems : List String) (i : Nat) : Prop :=
  (strFields Sections).contains (elems.getD i "") ∧
  dashResolves fs c (pathJoin (elems.take i))

instance (fs : FS) (c : Config) (elems : List String) (i : Nat) :
    Decidable (dashHit fs c elems i) := by
  unfold dashHit; infer_instance

/-- The redirect target `tryDashRedirect` emits for split point `i`:
the prefix, a `-`, and the remaining segments. -/
def dashTarget (elems : List String) (i : Nat) : String :=
  pathJoin ["/" ++ pathJoin (elems.take i), "-", pathJoin (elems.drop i)]

/-- An out-of-range split point is never a hit (the empty segment is
not a section keyword). -/
lemma dashHit_lt_length (fs : FS) (c : Config) (elems : List String) (j : Nat)
    (h : dashHit fs c elems j) : j < elems.length := by
  by_contra hge
  have hd : elems.getD j "" = "" := List.getD_eq_default _ _ (by omega)
  have := h.1
  rw [hd] at this
  exact absurd this (by decide)

/-- The downward scan `dashGo` finds exactly the largest hit `i ≤ n`
with `0 < i`, and returns its insert-the-dash target. -/
lemma dashGo_char (fs : FS) (c : Config) (elems : List String) :
    ∀ (n : Nat) (loc : String),
      dashGo fs c elems n = some loc ↔
        ∃ i, 0 < i ∧ i ≤ n ∧ dashHit fs c elems i ∧
          (∀ j, i < j → j ≤ n → ¬ dashHit fs c elems j) ∧
          loc = dashTarget elems i := by
  intro n
  induction n with
  | zero =>
    intro loc
    simp only [dashGo]
    constructor
    · intro h; exact Option.noConfusion h
    · rintro ⟨i, h0, hle, -⟩; omega
  | succ n ih =>
    intro loc
    simp only [dashGo]
    split_ifs with hcond
    · constructor
      · intro h
        injection h with h
        exact ⟨n + 1, Nat.succ_pos n, le_refl _, hcond,
          fun j h1 h2 => absurd (Nat.lt_of_lt_of_le h1 h2) (lt_irrefl _), h.symm⟩
      · rintro ⟨i, h0, hle, hi, hmax, hloc⟩
        rcases Nat.lt_or_ge i (n + 1) with hlt | hge
        · exact absurd hcond (hmax (n + 1) (by omega) (le_refl _))
        · have : i = n + 1 := by omega
          subst this
          rw [hloc]
          rfl
    · rw [ih]
      constructor
      · rintro ⟨i, h0, hle, hi, hmax, hloc⟩
        refine ⟨i, h0, by omega, hi, fun j h1 h2 => ?_, hloc⟩
        rcases Nat.lt_or_ge j (n + 1) with hlt | hge
        · exact hmax j h1 (by omega)
        · have : j = n + 1 := by omega
          subst this
          exact hcond
      · rintro ⟨i, h0, hle, hi, hmax, hloc⟩
        have hin : i ≤ n := by
          rcases Nat.lt_or_ge i (n + 1) with hlt | hge
          · omega
          · have : i = n + 1 := by omega
            subst this
            exact absurd hi hcond
        exact ⟨i, h0, hin, hi, fun j h1 h2 => hmax j h1 (by omega), hloc⟩

/-- `splitChar` always yields at least one token. -/
lemma splitChar_ne_nil (c : Char) (l : List Char) : splitChar c l ≠ [] := by
  cases l with
  | nil => simp [splitChar]
  | cons x xs =>
    simp only [splitChar]
    split
    · split <;> simp
    · simp

/-- The segment list of a repository path is never empty. -/
lemma strSplitChar_ne_nil (s : String) (c : Char) : strSplitChar s c ≠ [] := by
  unfold strSplitChar
  intro hmap
  exact splitChar_ne_nil c s.data (List.map_eq_nil_iff.mp hmap)

/-- C6: separator recovery runs only when the request's section is
`head` (otherwise only the suffix redirect can produce the 301); when
it applies after failed resolution it emits a 301; and the emitted
target corresponds to the largest split point `i ≥ 1` whose segment is
a section keyword and whose prefix resolves under the suffix policy,
with a `-` inserted immediately before that segment. -/
theorem c6_dash_redirect :
    (∀ (fs : FS) (c : Config) (req : Request) (loc : String), req.Section ≠ "head" →
      repoMiddleware fs c req = .redirect loc → trySuffixRedirect fs c req = some loc) ∧
    (∀ (fs : FS) (c : Config) (req : Request) (loc : String), req.Section = "head" →
      resolveRepo fs c req.Repo = none → tryDashRedirect fs c req = some loc →
      repoMiddleware fs c req = .redirect loc) ∧
    (∀ (fs : FS) (c : Config) (req : Request) (loc : String),
      tryDashRedirect fs c req = some loc ↔
        ∃ i, 0 < i ∧ i < (strSplitChar req.Repo '/').length ∧
          dashHit fs c (strSplitChar req.Repo '/') i ∧
          (∀ j, i < j → j < (strSplitChar req.Repo '/').length →
            ¬ dashHit fs c (strSplitChar req.Repo '/') j) ∧
          loc = dashTarget (strSplitChar req.Repo '/') i) := by
  refine ⟨?_, ?_, ?_⟩
  · intro fs c req loc hne h
    unfold repoMiddleware at h
    split at h
    · exact RepoOutcome.noConfusion h
    · rw [if_neg hne] at h
      split at h
      next loc' heq2 => injection h with h; rw [heq2, h]
      next => exact RepoOutcome.noConfusion h
  · intro fs c req loc hsec hres hdash
    unfold repoMiddleware
    simp only [hres]
    rw [if_pos hsec]
    simp only [hdash]
  · intro fs c req loc
    unfold tryDashRedirect
    rw [dashGo_char]
    have hlen : 0 < (strSplitChar req.Repo '/').length :=
      List.length_pos.mpr (strSplitChar_ne_nil _ _)
    constructor
    · rintro ⟨i, h0, hle, hi, hmax, hloc⟩
      exact ⟨i, h0, by omega, hi, fun j h1 h2 => hmax j h1 (by omega), hloc⟩
    · rintro ⟨i, h0, hlt, hi, hmax, hloc⟩
      exact ⟨i, h0, by omega, hi, fun j h1 h2 => hmax j h1 (by omega), hloc⟩

/-- C6, witness: the nested path `proj/tree/main` with a repository at
`proj` redirects with the `-` inserted before `tree`. -/
theorem c6_witness :
    repoMiddleware fsNested {} { Repo := "proj/tree/main", Section := "head" } =
      .redirect "/proj/-/tree/main" ∧
    (∃ i, 0 < i ∧ i < (strSplitChar "proj/tree/main" '/').length ∧
      dashHit fsNested {} (strSplitChar "proj/tree/main" '/') i ∧
      (∀ j, i < j → j < (strSplitChar "proj/tree/main" '/').length →
        ¬ dashHit fsNested {} (strSplitChar "proj/tree/main" '/') j) ∧
      "/proj/-/tree/main" = dashTarget (strSplitChar "proj/tree/main" '/') i) :=
  ⟨c6_dash_redirect.2.1 fsNested {} { Repo := "proj/tree/main", Section := "head" }
      "/proj/-/tree/main" rfl rfl rfl,
   (c6_dash_redirect.2.2 fsNested {} { Repo := "proj/tree/main", Section := "head" }
      "/proj/-/tree/main").mp rfl⟩

/-! ## Claim C8 -/

/-- How many times one line of a chunk of type `ty` advances the left
counter. -/
def leftStep : Operation → Nat
  | .Equal => 1
  | .Add => 0
  | .Delete => 1

/-- How many times one line of a chunk of type `ty` advances the right
counter. -/
def rightStep : Operation → Nat
  | .Equal => 1
  | .Add => 1
  | .Delete => 0

/-- The row `expandLine` emits for one line, as a function of the
counters. -/
def mkRow (ty : Operation) (text : String) (l r : Nat) : PatchInfo :=
  match ty with
  | .Equal =>
    { Left := natToStr l, Right := natToStr r, Operation := .Equal, Content := " " ++ text }
  | .Add => { Right := natToStr r, Operation := .Add, Content := "+" ++ text }
  | .Delete => { Left := natToStr l, Operation := .Delete, Content := "-" ++ text }

/-- The rows one chunk contributes, starting from counters `l`, `r`. -/
def rowsOfChunk (ty : Operation) : List String → Nat → Nat → List PatchInfo
  | [], _, _ => []
  | t :: ts, l, r => mkRow ty t l r :: rowsOfChunk ty ts (l + leftStep ty) (r + rightStep ty)

/-- The rows a chunk list contributes, starting from counters `l`,
`r`. -/
def rowsOfChunks : List Chunk → Nat → Nat → List PatchInfo
  | [], _, _ => []
  | ch :: cs, l, r =>
    rowsOfChunk ch.Type' (scanLines ch.Content) l r ++
      rowsOfChunks cs (l + leftStep ch.Type' * (scanLines ch.Content).length)
        (r + rightStep ch.Type' * (scanLines ch.Content).length)

/-- Total scanned line count of a chunk list. -/
def totalLines (cs : List Chunk) : Nat :=
  (cs.map fun ch => (scanLines ch.Content).length).sum

/-- Scanned line count of the chunks of one operation type. -/
def opLines (op : Operation) (cs : List Chunk) : Nat :=
  ((cs.filter fun ch => ch.Type' == op).map fun ch => (scanLines ch.Content).length).sum

/-- The left numbers of the left-numbered rows, in order. -/
def leftRows (rows : List PatchInfo) : List String :=
  (rows.filter fun row => row.Left != "").map (·.Left)

/-- The right numbers of the right-numbered rows, in order. -/
def rightRows (rows : List PatchInfo) : List String :=
  (rows.filter fun row => row.Right != "").map (·.Right)

lemma natToStrCore_ne_nil (fuel n : Nat) : natToStrCore (fuel + 1) n ≠ [] := by
  simp only [natToStrCore]
  split <;> simp

/-- Counter values render as nonempty strings. -/
lemma natToStr_ne_empty (n : Nat) : natToStr n ≠ "" := by
  unfold natToStr
  intro h
  have hdata : natToStrCore (n + 1) n = [] := by
    have := congrArg String.data h
    simpa using this
  exact natToStrCore_ne_nil n n hdata

lemma expandLine_fullInfo (ty : Operation) (t : String) (st : ExpSt) :
    (expandLine ty t st).fullInfo = st.fullInfo ++ [mkRow ty t st.left st.right] := by
  cases ty <;> rfl

lemma expandLine_left (ty : Operation) (t : String) (st : ExpSt) :
    (expandLine ty t st).left = st.left + leftStep ty := by
  cases ty <;> rfl

lemma expandLine_right (ty : Operation) (t : String) (st : ExpSt) :
    (expandLine ty t st).right = st.right + rightStep ty := by
  cases ty <;> rfl

lemma expandChunk_fullInfo (ty : Operation) : ∀ (ls : List String) (st : ExpSt),
    (expandChunk ty ls st).fullInfo = st.fullInfo ++ rowsOfChunk ty ls st.left st.right := by
  intro ls
  induction ls with
  | nil => intro st; simp [expandChunk, rowsOfChunk]
  | cons t ts ih =>
    intro st
    simp only [expandChunk, rowsOfChunk]
    rw [ih, expandLine_fullInfo, expandLine_left, expandLine_right, List.append_assoc]
    rfl

lemma expandChunk_left (ty : Operation) : ∀ (ls : List String) (st : ExpSt),
    (expandChunk ty ls st).left = st.left + leftStep ty * ls.length := by
  intro ls
  induction ls with
  | nil => intro st; simp [expandChunk]
  | cons t ts ih =>
    intro st
    simp only [expandChunk]
    rw [ih, expandLine_left, List.length_cons, Nat.mul_succ]
    omega

lemma expandChunk_right (ty : Operation) : ∀ (ls : List String) (st : ExpSt),
    (expandChunk ty ls st).right = st.right + rightStep ty * ls.length := by
  intro ls
  induction ls with
  | nil => intro st; simp [expandChunk]
  | cons t ts ih =>
    intro st
    simp only [expandChunk]
    rw [ih, expandLine_right, List.length_cons, Nat.mul_succ]
    omega

lemma expandChunks_fullInfo : ∀ (cs : List Chunk) (st : ExpSt),
    (expandChunks cs st).fullInfo = st.fullInfo ++ rowsOfChunks cs st.left st.right := by
  intro cs
  induction cs with
  | nil => intro st; simp [expandChunks, rowsOfChunks]
  | cons ch cs ih =>
    intro st
    simp only [expandChunks, rowsOfChunks]
    rw [ih, expandChunk_fullInfo, expandChunk_left, expandChunk_right, List.append_assoc]

lemma rowsOfChunk_length (ty : Operation) : ∀ (ls : List String) (l r : Nat),
    (rowsOfChunk ty ls l r).length = ls.length := by
  intro ls
  induction ls with
  | nil => intro l r; rfl
  | cons t ts ih => intro l r; simp [rowsOfChunk, ih]

lemma rowsOfChunks_length : ∀ (cs : List Chunk) (l r : Nat),
    (rowsOfChunks cs l r).length = totalLines cs := by
  intro cs
  induction cs with
  | nil => intro l r; rfl
  | cons ch cs ih =>
    intro l r
    simp [rowsOfChunks, rowsOfChunk_length, ih, totalLines]

lemma leftRows_append (a b : List PatchInfo) :
    leftRows (a ++ b) = leftRows a ++ leftRows b := by
  simp [leftRows, List.filter_append]

lemma rightRows_append (a b : List PatchInfo) :
    rightRows (a ++ b) = rightRows a ++ rightRows b := by
  simp [rightRows, List.filter_append]

lemma leftRows_rowsOfChunk (ty : Operation) : ∀ (ls : List String) (l r : Nat),
    leftRows (rowsOfChunk ty ls l r) =
      (List.range' l (leftStep ty * ls.length)).map natToStr := by
  intro ls
  induction ls with
  | nil => intro l r; cases ty <;> simp [rowsOfChunk, leftRows]
  | cons t ts ih =>
    intro l r
    cases ty with
    | Equal =>
      simp only [rowsOfChunk, leftRows, List.filter_cons] at ih ⊢
      have hne : ((mkRow .Equal t l r).Left != "") = true := by
        simp [mkRow, natToStr_ne_empty l]
      rw [if_pos hne, List.map_cons, ih]
      simp [leftStep, mkRow, List.range'_succ]
    | Add =>
      simp only [rowsOfChunk, leftRows, List.filter_cons] at ih ⊢
      rw [if_neg (by simp [mkRow]), ih]
      simp [leftStep]
    | Delete =>
      simp only [rowsOfChunk, leftRows, List.filter_cons] at ih ⊢
      have hne : ((mkRow .Delete t l r).Left != "") = true := by
        simp [mkRow, natToStr_ne_empty l]
      rw [if_pos hne, List.map_cons, ih]
      simp [leftStep, mkRow, List.range'_succ]

lemma rightRows_rowsOfChunk (ty : Operation) : ∀ (ls : List String) (l r : Nat),
    rightRows (rowsOfChunk ty ls l r) =
      (List.range' r (rightStep ty * ls.length)).map natToStr := by
  intro ls
  induction ls with
  | nil => intro l r; cases ty <;> simp [rowsOfChunk, rightRows]
  | cons t ts ih =>
    intro l r
    cases ty with
    | Equal =>
      simp only [rowsOfChunk, rightRows, List.filter_cons] at ih ⊢
      have hne : ((mkRow .Equal t l r).Right != "") = true := by
        simp [mkRow, natToStr_ne_empty r]
      rw [if_pos hne, List.map_cons, ih]
      simp [rightStep, mkRow, List.range'_succ]
    | Add =>
      simp only [rowsOfChunk, rightRows, List.filter_cons] at ih ⊢
      have hne : ((mkRow .Add t l r).Right != "") = true := by
        simp [mkRow, natToStr_ne_empty r]
      rw [if_pos hne, List.map_cons, ih]
      simp [rightStep, mkRow, List.range'_succ]
    | Delete =>
      simp only [rowsOfChunk, rightRows, List.filter_cons] at ih ⊢
      rw [if_neg (by simp [mkRow]), ih]
      simp [rightStep]

/-- Left-counter advance of a chunk list. -/
def leftLines (cs : List Chunk) : Nat :=
  (cs.map fun ch => leftStep ch.Type' * (scanLines ch.Content).length).sum

/-- Right-counter advance of a chunk list. -/
def rightLines (cs : List Chunk) : Nat :=
  (cs.map fun ch => rightStep ch.Type' * (scanLines ch.Content).length).sum

lemma leftRows_rowsOfChunks : ∀ (cs : List Chunk) (l r : Nat),
    leftRows (rowsOfChunks cs l r) = (List.range' l (leftLines cs)).map natToStr := by
  intro cs
  induction cs with
  | nil => intro l r; simp [rowsOfChunks, leftRows, leftLines]
  | cons ch cs ih =>
    intro l r
    simp only [rowsOfChunks]
    rw [leftRows_append, leftRows_rowsOfChunk, ih, ← List.map_append]
    congr 1
    have happ := List.range'_append l
      (leftStep ch.Type' * (scanLines ch.Content).length) (leftLines cs) 1
    rw [Nat.one_mul] at happ
    rw [happ]
    congr 1
    simp [leftLines]
    omega

lemma rightRows_rowsOfChunks : ∀ (cs : List Chunk) (l r : Nat),
    rightRows (rowsOfChunks cs l r) = (List.range' r (rightLines cs)).map natToStr := by
  intro cs
  induction cs with
  | nil => intro l r; simp [rowsOfChunks, rightRows, rightLines]
  | cons ch cs ih =>
    intro l r
    simp only [rowsOfChunks]
    rw [rightRows_append, rightRows_rowsOfChunk, ih, ← List.map_append]
    congr 1
    have happ := List.range'_append r
      (rightStep ch.Type' * (scanLines ch.Content).length) (rightLines cs) 1
    rw [Nat.one_mul] at happ
    rw [happ]
    congr 1
    simp [rightLines]
    omega

lemma leftLines_eq : ∀ (cs : List Chunk),
    leftLines cs = opLines .Equal cs + opLines .Delete cs := by
  intro cs
  induction cs with
  | nil => rfl
  | cons ch cs ih =>
    cases hty : ch.Type' <;>
      simp [leftLines, opLines, List.filter_cons, hty, leftStep] at ih ⊢ <;>
      omega

lemma rightLines_eq : ∀ (cs : List Chunk),
    rightLines cs = opLines .Equal cs + opLines .Add cs := by
  intro cs
  induction cs with
  | nil => rfl
  | cons ch cs ih =>
    cases hty : ch.Type' <;>
      simp [rightLines, opLines, List.filter_cons, hty, rightStep] at ih ⊢ <;>
      omega

lemma mem_rowsOfChunk (ty : Operation) : ∀ (ls : List String) (l r : Nat)
    (row : PatchInfo), row ∈ rowsOfChunk ty ls l r →
    ∃ t l' r', row = mkRow ty t l' r' := by
  intro ls
  induction ls with
  | nil => intro l r row h; simp [rowsOfChunk] at h
  | cons t ts ih =>
    intro l r row h
    simp only [rowsOfChunk, List.mem_cons] at h
    rcases h with h | h
    · exact ⟨t, l, r, h⟩
    · exact ih _ _ _ h

lemma mem_rowsOfChunks : ∀ (cs : List Chunk) (l r : Nat) (row : PatchInfo),
    row ∈ rowsOfChunks cs l r → ∃ ty t l' r', row = mkRow ty t l' r' := by
  intro cs
  induction cs with
  | nil => intro l r row h; simp [rowsOfChunks] at h
  | cons ch cs ih =>
    intro l r row h
    simp only [rowsOfChunks, List.mem_append] at h
    rcases h with h | h
    · obtain ⟨t, l', r', ht⟩ := mem_rowsOfChunk _ _ _ _ _ h
      exact ⟨ch.Type', t, l', r', ht⟩
    · exact ih _ _ _ h

/-- C8: every scanned input line emits exactly one row (the row count
is the line count); a row carries a left number exactly for `Equal` and
`Delete` lines and a right number exactly for `Equal` and `Add` lines;
and the left numbers of the left-numbered rows are, in order, the
decimal renderings of `1, 2, …, #equal + #delete` — likewise the right
numbers with `#equal + #add` — so each side's counter advances once per
line on that side and the numbers are never recomputed. -/
theorem c8_expansion (cs : List Chunk) :
    (expandChunks cs {}).fullInfo.length = totalLines cs ∧
    leftRows (expandChunks cs {}).fullInfo =
      (List.range' 1 (opLines .Equal cs + opLines .Delete cs)).map natToStr ∧
    rightRows (expandChunks cs {}).fullInfo =
      (List.range' 1 (opLines .Equal cs + opLines .Add cs)).map natToStr ∧
    (∀ row ∈ (expandChunks cs {}).fullInfo,
      (row.Operation = .Equal → row.Left ≠ "" ∧ row.Right ≠ "") ∧
      (row.Operation = .Add → row.Left = "" ∧ row.Right ≠ "") ∧
      (row.Operation = .Delete → row.Left ≠ "" ∧ row.Right = "")) := by
  have hfull : (expandChunks cs {}).fullInfo = rowsOfChunks cs 1 1 := by
    rw [expandChunks_fullInfo]
    rfl
  rw [hfull]
  refine ⟨rowsOfChunks_length cs 1 1, ?_, ?_, ?_⟩
  · rw [leftRows_rowsOfChunks, leftLines_eq]
  · rw [rightRows_rowsOfChunks, rightLines_eq]
  · intro row hmem
    obtain ⟨ty, t, l', r', hrow⟩ := mem_rowsOfChunks cs 1 1 row hmem
    subst hrow
    cases ty with
    | Equal =>
      exact ⟨fun _ => ⟨natToStr_ne_empty l', natToStr_ne_empty r'⟩,
        fun h => by simp [mkRow] at h, fun h => by simp [mkRow] at h⟩
    | Add =>
      exact ⟨fun h => by simp [mkRow] at h,
        fun _ => ⟨rfl, natToStr_ne_empty r'⟩, fun h => by simp [mkRow] at h⟩
    | Delete =>
      exact ⟨fun h => by simp [mkRow] at h, fun h => by simp [mkRow] at h,
        fun _ => ⟨natToStr_ne_empty l', rfl⟩⟩

/-- C8, witness at a concrete chunk list. -/
theorem c8_witness :
    (expandChunks fpLeadingRun.Chunks {}).fullInfo.length = totalLines fpLeadingRun.Chunks ∧
    leftRows (expandChunks fpLeadingRun.Chunks {}).fullInfo =
      (List.range' 1 (opLines .Equal fpLeadingRun.Chunks +
        opLines .Delete fpLeadingRun.Chunks)).map natToStr ∧
    rightRows (expandChunks fpLeadingRun.Chunks {}).fullInfo =
      (List.range' 1 (opLines .Equal fpLeadingRun.Chunks +
        opLines .Add fpLeadingRun.Chunks)).map natToStr ∧
    (∀ row ∈ (expandChunks fpLeadingRun.Chunks {}).fullInfo,
      (row.Operation = .Equal → row.Left ≠ "" ∧ row.Right ≠ "") ∧
      (row.Operation = .Add → row.Left = "" ∧ row.Right ≠ "") ∧
      (row.Operation = .Delete → row.Left ≠ "" ∧ row.Right = "")) :=
  c8_expansion fpLeadingRun.Chunks

/-! ## Claim C7 -/

/-- The surviving rows (with their expanded-row indices) of the suffix
of the expansion starting at index `i`: rows whose index is in context
of some changed index. -/
def survFrom (lines : List Nat) (i : Nat) (rows : List PatchInfo) : List (Nat × PatchInfo) :=
  (List.enumFrom i rows).filter fun p => inContext lines p.1

/-- Interleave the surviving rows after `prev` with one ellipsis row at
every index gap. -/
def gapGo (prev : Nat) : List (Nat × PatchInfo) → List PatchInfo
  | [] => []
  | (i, row) :: rest =>
    if i = prev + 1 then row :: gapGo i rest
    else ellipsisRow :: row :: gapGo i rest

/-- The windowed output as the amended specification describes it: keep
exactly the surviving rows, separate survivors at an index gap by one
ellipsis row, drop a leading non-surviving run without an ellipsis, and
never end in an ellipsis. -/
def specWindowed (lines : List Nat) (rows : List PatchInfo) : List PatchInfo :=
  match survFrom lines 0 rows with
  | [] => []
  | (j, row) :: rest => row :: gapGo j rest

lemma survFrom_cons (lines : List Nat) (i : Nat) (r : PatchInfo) (rs : List PatchInfo) :
    survFrom lines i (r :: rs) =
      if inContext lines i = true then (i, r) :: survFrom lines (i + 1) rs
      else survFrom lines (i + 1) rs := by
  unfold survFrom
  rw [List.enumFrom_cons, List.filter_cons]

/-- Everything `survFrom` keeps has index at least `i`, is a row of the
input, and is in context. -/
lemma mem_survFrom (lines : List Nat) : ∀ (rows : List PatchInfo) (i : Nat)
    (p : Nat × PatchInfo), p ∈ survFrom lines i rows →
      i ≤ p.1 ∧ p.2 ∈ rows ∧ inContext lines p.1 = true := by
  intro rows
  induction rows with
  | nil => intro i p h; simp [survFrom] at h
  | cons r rs ih =>
    intro i p h
    rw [survFrom_cons] at h
    by_cases hc : inContext lines i = true
    · rw [if_pos hc] at h
      rcases List.mem_cons.mp h with h | h
      · subst h; exact ⟨le_refl _, List.mem_cons_self _ _, hc⟩
      · obtain ⟨h1, h2, h3⟩ := ih (i + 1) p h
        exact ⟨by omega, List.mem_cons_of_mem _ h2, h3⟩
    · rw [if_neg hc] at h
      obtain ⟨h1, h2, h3⟩ := ih (i + 1) p h
      exact ⟨by omega, List.mem_cons_of_mem _ h2, h3⟩

/-- If no row of the suffix survives, no index in its range is in
context. -/
lemma survFrom_nil_no_ctx (lines : List Nat) : ∀ (rows : List PatchInfo) (i : Nat),
    survFrom lines i rows = [] →
    ∀ k, k < rows.length → inContext lines (i + k) = false := by
  intro rows
  induction rows with
  | nil => intro i _ k hk; simp at hk
  | cons r rs ih =>
    intro i h k hk
    rw [survFrom_cons] at h
    by_cases hc : inContext lines i = true
    · rw [if_pos hc] at h; exact absurd h (by simp)
    · rw [if_neg hc] at h
      cases k with
      | zero => simpa using Bool.not_eq_true _ ▸ (by simpa using hc)
      | succ k' =>
        have := ih (i + 1) h k' (by simpa using hk)
        rw [show i + (k' + 1) = (i + 1) + k' by omega]
        exact this

/-- The shape of the windowing loop's output on the suffix of the
expansion starting at row `i` with pending-diff flag `b`: the surviving
rows with single ellipsis rows at interior gaps, preceded by one
ellipsis only when a diff is already open, and followed by one ellipsis
exactly when the final row does not survive. -/
def windowSpec (lines : List Nat) (i : Nat) (b : Bool) (rows : List PatchInfo) :
    List PatchInfo :=
  match survFrom lines i rows with
  | [] => if b = true ∧ rows ≠ [] then [ellipsisRow] else []
  | (j, row) :: rest =>
    (if b = true ∧ i < j then [ellipsisRow] else []) ++
      (row :: (gapGo j rest ++
        (if inContext lines (i + rows.length - 1) = true then [] else [ellipsisRow])))

/-- The characterization of the windowing loop. -/
lemma windowLoop_char (lines : List Nat) : ∀ (rows : List PatchInfo) (i : Nat) (b : Bool),
    windowLoop lines i b rows = windowSpec lines i b rows := by
  intro rows
  induction rows with
  | nil =>
    intro i b
    simp [windowLoop, windowSpec, survFrom]
  | cons r rs ih =>
    intro i b
    have hlen : i + (r :: rs).length - 1 = i + rs.length := by
      simp only [List.length_cons]
      omega
    have htr : (i + 1) + rs.length - 1 = i + rs.length := by omega
    by_cases hc : inContext lines i = true
    case pos =>
      simp only [windowLoop, hc, if_true]
      rw [ih (i + 1) true]
      unfold windowSpec
      rw [survFrom_cons, if_pos hc]
      cases hs : survFrom lines (i + 1) rs with
      | nil =>
        simp only []
        by_cases hrs : rs = []
        · subst hrs
          simp [hc, gapGo]
        · have hnotc : inContext lines (i + rs.length) = false := by
            have hlast := survFrom_nil_no_ctx lines rs (i + 1) hs (rs.length - 1)
              (by cases rs with | nil => exact absurd rfl hrs | cons a l => simp)
            rw [show (i + 1) + (rs.length - 1) = i + rs.length by
              cases rs with
              | nil => exact absurd rfl hrs
              | cons a l => simp only [List.length_cons]; omega] at hlast
            exact hlast
          rw [hlen]
          simp [hrs, hnotc, gapGo]
      | cons p rest =>
        obtain ⟨j, row⟩ := p
        have hj : i + 1 ≤ j := (mem_survFrom lines rs (i + 1) (j, row)
          (hs ▸ List.mem_cons_self _ _)).1
        simp only []
        rw [hlen, htr]
        by_cases hjj : j = i + 1
        · subst hjj
          simp only [gapGo, if_pos rfl]
          simp [Nat.lt_irrefl]
        · have hlt : i + 1 < j := by omega
          simp only [gapGo, if_neg hjj]
          simp [Nat.lt_irrefl, hlt, Nat.lt_of_succ_lt hlt]
    case neg =>
      simp only [windowLoop, hc, if_false]
      have hcf : inContext lines i = false := by
        cases hx : inContext lines i with
        | false => rfl
        | true => exact absurd hx hc
      cases b with
      | true =>
        simp only [if_true]
        rw [ih (i + 1) false]
        unfold windowSpec
        rw [survFrom_cons, if_neg hc]
        cases hs : survFrom lines (i + 1) rs with
        | nil =>
          simp
        | cons p rest =>
          obtain ⟨j, row⟩ := p
          have hj : i + 1 ≤ j := (mem_survFrom lines rs (i + 1) (j, row)
            (hs ▸ List.mem_cons_self _ _)).1
          simp only []
          rw [hlen, htr]
          simp [show i < j by omega]
      | false =>
        simp only [Bool.false_eq_true, if_false]
        rw [ih (i + 1) false]
        unfold windowSpec
        rw [survFrom_cons, if_neg hc]
        cases hs : survFrom lines (i + 1) rs with
        | nil =>
          simp
        | cons p rest =>
          obtain ⟨j, row⟩ := p
          simp only []
          rw [hlen, htr]
          simp

/-- The row content `expandLine` emits never equals the ellipsis
marker (it always begins with a space, `+` or `-`). -/
lemma mkRow_content_ne (ty : Operation) (t : String) (l r : Nat) :
    (mkRow ty t l r).Content ≠ ". . ." := by
  cases ty <;>
    (intro h
     have hd := congrArg String.data h
     rw [mkRow] at hd
     simp only [String.data_append] at hd
     simp at hd)

/-- Expanded rows never carry the ellipsis marker. -/
lemma fullInfo_content_ne (cs : List Chunk) (row : PatchInfo)
    (h : row ∈ (expandChunks cs {}).fullInfo) : row.Content ≠ ". . ." := by
  rw [expandChunks_fullInfo] at h
  simp only [ExpSt.fullInfo] at h
  obtain ⟨ty, t, l', r', hrow⟩ := mem_rowsOfChunks cs _ _ row (by simpa using h)
  subst hrow
  exact mkRow_content_ne ty t l' r'

/-- The last element of an interleaving is always a surviving row,
never an ellipsis, provided the survivors' contents are not the
marker. -/
lemma gapGo_last_content : ∀ (rest : List (Nat × PatchInfo)) (j : Nat) (row : PatchInfo),
    (∀ p ∈ rest, (p : Nat × PatchInfo).2.Content ≠ ". . .") → row.Content ≠ ". . ." →
    ∃ x, (row :: gapGo j rest).getLast? = some x ∧ x.Content ≠ ". . ." := by
  intro rest
  induction rest with
  | nil => intro j row _ hrow; exact ⟨row, rfl, hrow⟩
  | cons q qs ih =>
    intro j row hqs hrow
    obtain ⟨qi, qr⟩ := q
    obtain ⟨x, hx, hxc⟩ := ih qi qr
      (fun p hp => hqs p (List.mem_cons_of_mem _ hp))
      (hqs (qi, qr) (List.mem_cons_self _ _))
    rw [gapGo]
    by_cases hq : qi = j + 1
    · rw [if_pos hq]
      exact ⟨x, by rw [List.getLast?_cons_cons]; exact hx, hxc⟩
    · rw [if_neg hq]
      refine ⟨x, ?_, hxc⟩
      rw [List.getLast?_cons_cons, List.getLast?_cons_cons]
      exact hx

/-- C7: a row survives exactly when its distance to some changed index
is at most `DiffContext` (inclusive, both directions, including the
changed index itself); and the output of `FilePatch.Info` is exactly
the surviving rows with one ellipsis row at every interior gap — a
leading run of non-survivors is removed without an ellipsis and no
trailing ellipsis remains. -/
theorem c7_windowing :
    (∀ (lines : List Nat) (i : Nat), inContext lines i = true ↔
      ∃ d ∈ lines, i = d ∨ (i < d ∧ d - i ≤ DiffContext) ∨ (d < i ∧ i - d ≤ DiffContext)) ∧
    (∀ (fp : FilePatch) (out : List PatchInfo), fp.Info = .ok out →
      out = specWindowed (expandChunks fp.Chunks {}).lines
        (expandChunks fp.Chunks {}).fullInfo) := by
  constructor
  · intro lines i
    unfold inContext
    rw [List.any_eq_true]
    constructor
    · rintro ⟨d, hd, hdec⟩
      rw [decide_eq_true_eq] at hdec
      exact ⟨d, hd, by omega⟩
    · rintro ⟨d, hd, hcond⟩
      refine ⟨d, hd, ?_⟩
      rw [decide_eq_true_eq]
      omega
  · intro fp out h
    unfold FilePatch.Info at h
    split_ifs at h with hb
    rcases hfi : (expandChunks fp.Chunks {})
      with ⟨lineNum, lines, rows, left, right⟩
    rw [hfi] at h
    simp only [] at h
    have hchar := windowLoop_char lines rows 0 false
    unfold windowSpec at hchar
    unfold specWindowed
    simp only []
    have hcont : ∀ row ∈ rows, (row : PatchInfo).Content ≠ ". . ." := by
      intro row hm
      refine fullInfo_content_ne fp.Chunks row ?_
      rw [hfi]
      exact hm
    cases hs : survFrom lines 0 rows with
    | nil =>
      rw [hs] at hchar
      simp only [Bool.false_eq_true, false_and, if_false] at hchar
      rw [hchar] at h
      simp at h
    | cons p rest =>
      obtain ⟨j, row⟩ := p
      rw [hs] at hchar
      simp only [Bool.false_eq_true, false_and, if_false, List.nil_append] at hchar
      have hmem := mem_survFrom lines rows 0 (j, row) (hs ▸ List.mem_cons_self _ _)
      have hrowc : row.Content ≠ ". . ." := hcont row hmem.2.1
      have hrestc : ∀ p ∈ rest, (p : Nat × PatchInfo).2.Content ≠ ". . ." := by
        intro p hp
        exact hcont p.2 (mem_survFrom lines rows 0 p
          (hs ▸ List.mem_cons_of_mem _ hp)).2.1
      by_cases htr : inContext lines (0 + rows.length - 1) = true
      · rw [if_pos htr, List.append_nil] at hchar
        obtain ⟨x, hx, hxc⟩ := gapGo_last_content rest j row hrestc hrowc
        rw [hchar] at h
        rw [hx] at h
        simp only [] at h
        rw [if_neg hxc] at h
        injection h with h
        exact h.symm
      · rw [if_neg htr] at hchar
        rw [hchar] at h
        have hcons : row :: (gapGo j rest ++ [ellipsisRow]) =
            (row :: gapGo j rest) ++ [ellipsisRow] := by simp
        rw [hcons] at h
        rw [List.getLast?_concat] at h
        simp only [] at h
        rw [if_pos (show ellipsisRow.Content = ". . ." from rfl)] at h
        rw [List.dropLast_concat] at h
        injection h with h
        exact h.symm

/-- C7, counterexample: five unchanged lines before a deletion with
`DiffContext = 3` — expanded rows 0 and 1 are a maximal non-surviving
run, yet the output contains no ellipsis row at all (the leading run is
removed silently instead of collapsing to one ellipsis row). -/
theorem c7_counterexample :
    FilePatch.Info fpLeadingRun = .ok
      [{ Left := "3", Right := "3", Operation := .Equal, Content := " c" },
       { Left := "4", Right := "4", Operation := .Equal, Content := " d" },
       { Left := "5", Right := "5", Operation := .Equal, Content := " e" },
       { Left := "6", Operation := .Delete, Content := "-x" }] ∧
    inContext (expandChunks fpLeadingRun.Chunks {}).lines 0 = false ∧
    inContext (expandChunks fpLeadingRun.Chunks {}).lines 1 = false ∧
    (expandChunks fpLeadingRun.Chunks {}).fullInfo.length = 6 ∧
    ([{ Left := "3", Right := "3", Operation := .Equal, Content := " c" },
      { Left := "4", Right := "4", Operation := .Equal, Content := " d" },
      { Left := "5", Right := "5", Operation := .Equal, Content := " e" },
      { Left := "6", Operation := .Delete, Content := "-x" }] : List PatchInfo).filter
        (fun row => row.Content == ". . .") = [] :=
  ⟨rfl, rfl, rfl, rfl, rfl⟩

/-- C7, witness for the amended theorem: the survival rule at a
concrete changed index, and the refinement equality at the concrete
patch. -/
theorem c7_witness :
    (inContext [5] 2 = true ↔
      ∃ d ∈ [5], (2 : Nat) = d ∨ (2 < d ∧ d - 2 ≤ DiffContext) ∨
        (d < 2 ∧ 2 - d ≤ DiffContext)) ∧
    [({ Left := "3", Right := "3", Operation := .Equal, Content := " c" } : PatchInfo),
     { Left := "4", Right := "4", Operation := .Equal, Content := " d" },
     { Left := "5", Right := "5", Operation := .Equal, Content := " e" },
     { Left := "6", Operation := .Delete, Content := "-x" }] =
      specWindowed (expandChunks fpLeadingRun.Chunks {}).lines
        (expandChunks fpLeadingRun.Chunks {}).fullInfo :=
  ⟨c7_windowing.1 [5] 2,
   c7_windowing.2 fpLeadingRun
     [{ Left := "3", Right := "3", Operation := .Equal, Content := " c" },
      { Left := "4", Right := "4", Operation := .Equal, Content := " d" },
      { Left := "5", Right := "5", Operation := .Equal, Content := " e" },
      { Left := "6", Operation := .Delete, Content := "-x" }] rfl⟩

/-! ## Claim C10 -/

/-- C10: on a non-binary patch whose single chunk holds one line and no
add or delete lines, the expansion emits one row and no changed index,
windowing keeps nothing, and the trailing-ellipsis check
`info[len(info)-1]` hits the empty slice — the index-out-of-range
panic, `InfoErr.indexPanic` in this embedding. -/
theorem c10_trailing_check_panics :
    fpAllEqual.IsBinary = false ∧
    (expandChunks fpAllEqual.Chunks {}).fullInfo.length = 1 ∧
    (expandChunks fpAllEqual.Chunks {}).lines = [] ∧
    FilePatch.Info fpAllEqual = .error .indexPanic :=
  ⟨rfl, rfl, rfl, rfl⟩

end Dgit


